import Mathlib

/-!
Verification of the design-tree normalization and targeted-extraction
pipeline of the zeplin mcp-server repository.

The embedding models:
* `preProcess` (src/util.ts), the tree normalizer over untyped JSON-like
  document nodes, together with `preProcessDesignTokens` and its
  `removeMetadata` pass;
* `findTargetLayer` / `pruneLayersForTargetLayer` (layer-utils), the layer
  locator and tree pruner;
* the `AssetRegistry` operations (asset registry module).

Document nodes are modelled as a mutual inductive family `JVal` / `JList` /
`JFields` so that all functions are structurally recursive and computable.
Field order and duplicate handling follow JavaScript `Object.entries`
iteration order; JS number values are modelled as rationals.
-/

mutual
inductive JVal where
  | null : JVal
  | bool (b : Bool) : JVal
  | num (q : ℚ) : JVal
  | str (s : String) : JVal
  | arr (xs : JList) : JVal
  | obj (fs : JFields) : JVal
deriving DecidableEq

inductive JList where
  | nil : JList
  | cons (v : JVal) (rest : JList) : JList
deriving DecidableEq

inductive JFields where
  | nil : JFields
  | cons (k : String) (v : JVal) (rest : JFields) : JFields
deriving DecidableEq
end

/-- True exactly for an empty JSON array, mirroring the JS test
`Array.isArray(x) && x.length === 0`. -/
def isEmptyArr : JVal → Bool
  | .arr .nil => true
  | _ => false

/-- The fixed noise-field set of `preProcess`:
`key === "created" || "creator" || "thumbnails" || "id"`. -/
def skipKey (k : String) : Bool :=
  k == "created" || k == "creator" || k == "thumbnails" || k == "id"

/-- The default-value elision test of `preProcess`:
`opacity === 1`, `blend_mode === "normal"`, `rotation === 0`. -/
def isDefault (k : String) (v : JVal) : Bool :=
  (k == "opacity" && v == JVal.num 1) ||
  (k == "blend_mode" && v == JVal.str "normal") ||
  (k == "rotation" && v == JVal.num 0)

/-- First field with the given key, mirroring JS property access on an
object built from these entries. -/
def lookupField (k : String) : JFields → Option JVal
  | .nil => none
  | .cons k' v rest => if k' == k then some v else lookupField k rest

/-- The filter predicate applied to each element of a `contents` array in
`preProcess`: an object carrying a `density` field is kept iff
`density === 1`; an empty array is dropped; everything else is kept. -/
def keepContentItem : JVal → Bool
  | .obj fs =>
    match lookupField "density" fs with
    | some d => d == JVal.num 1
    | none => true
  | .arr .nil => false
  | _ => true

mutual
/-- The tree normalizer `preProcess` of src/util.ts. -/
def preProcess : JVal → JVal
  | .null => .null
  | .bool b => .bool b
  | .num q => .num q
  | .str s => .str s
  | .arr xs => .arr (preProcessArr xs)
  | .obj fs => .obj (preProcessFields fs)

/-- Array branch of `preProcess`: `data.map(preProcess).filter(not empty array)`. -/
def preProcessArr : JList → JList
  | .nil => .nil
  | .cons x rest =>
    let px := preProcess x
    if isEmptyArr px then preProcessArr rest else .cons px (preProcessArr rest)

/-- The `contents` special case of `preProcess`: filter by `keepContentItem`,
normalize each kept item, drop items that normalized to an empty array. -/
def preProcessContents : JList → JList
  | .nil => .nil
  | .cons x rest =>
    if keepContentItem x then
      let px := preProcess x
      if isEmptyArr px then preProcessContents rest else .cons px (preProcessContents rest)
    else preProcessContents rest

/-- Object branch of `preProcess`: iterate the fields in order, dropping
noise fields, default-valued fields and fields whose processed value is an
empty array, special-casing array-valued `contents` fields. -/
def preProcessFields : JFields → JFields
  | .nil => .nil
  | .cons k v rest =>
    if skipKey k then preProcessFields rest
    else if isDefault k v then preProcessFields rest
    else
      let pv :=
        if k == "contents" then
          match v with
          | JVal.arr xs => JVal.arr (preProcessContents xs)
          | w => preProcess w
        else preProcess v
      if isEmptyArr pv then preProcessFields rest
      else .cons k pv (preProcessFields rest)
end

mutual
/-- The `removeMetadata` pass of `preProcessDesignTokens`: recursively
removes every field literally named `metadata`. -/
def removeMetadata : JVal → JVal
  | .null => .null
  | .bool b => .bool b
  | .num q => .num q
  | .str s => .str s
  | .arr xs => .arr (removeMetadataList xs)
  | .obj fs => .obj (removeMetadataFields fs)

/-- Array branch of `removeMetadata`: `obj.map(removeMetadata)`. -/
def removeMetadataList : JList → JList
  | .nil => .nil
  | .cons x rest => .cons (removeMetadata x) (removeMetadataList rest)

/-- Object branch of `removeMetadata`: skip `metadata` keys, recurse into
all other values. -/
def removeMetadataFields : JFields → JFields
  | .nil => .nil
  | .cons k v rest =>
    if k == "metadata" then removeMetadataFields rest
    else .cons k (removeMetadata v) (removeMetadataFields rest)
end

/-- `preProcessDesignTokens` of src/util.ts: normalize, then strip
`metadata` fields. -/
def preProcessDesignTokens (d : JVal) : JVal :=
  removeMetadata (preProcess d)

mutual
/-- Whether a document contains a field named `t` at any nesting depth. -/
def containsKey (t : String) : JVal → Bool
  | .arr xs => containsKeyList t xs
  | .obj fs => containsKeyFields t fs
  | _ => false

def containsKeyList (t : String) : JList → Bool
  | .nil => false
  | .cons x rest => containsKey t x || containsKeyList t rest

def containsKeyFields (t : String) : JFields → Bool
  | .nil => false
  | .cons k v rest => k == t || containsKey t v || containsKeyFields t rest
end

/-- Membership of a (key, value) entry in a field list. -/
def memField (k : String) (v : JVal) : JFields → Prop
  | .nil => False
  | .cons k' v' rest => (k = k' ∧ v = v') ∨ memField k v rest

instance (k : String) (v : JVal) : ∀ fs, Decidable (memField k v fs)
  | .nil => by unfold memField; exact inferInstance
  | .cons _ _ rest =>
    have := instDecidableMemField k v rest
    by unfold memField; exact inferInstance

/-- Element-wise map over a JSON list (spec-side helper). -/
def mapJ (f : JVal → JVal) : JList → JList
  | .nil => .nil
  | .cons x rest => .cons (f x) (mapJ f rest)

/-- Element-wise filter over a JSON list (spec-side helper). -/
def filterJ (p : JVal → Bool) : JList → JList
  | .nil => .nil
  | .cons x rest => if p x then .cons x (filterJ p rest) else filterJ p rest

/-- The density rule of the spec's `contents` clause, exactly as the claim
states it: entries carrying a `density` field are kept iff it equals 1,
entries without a `density` field are kept. -/
def keepByDensity : JVal → Bool
  | .obj fs =>
    match lookupField "density" fs with
    | some d => d == JVal.num 1
    | none => true
  | _ => true

/-!
Layer trees. A `Layer` has an optional `name`, an optional `componentName`,
an optional child list `layers` (absent ≠ present-but-empty), and a bag of
other fields (style/content data), which the locator and pruner never
inspect. The family is mutual so that all functions stay structurally
recursive.
-/

mutual
inductive Layer where
  | mk (name : Option String) (componentName : Option String)
       (children : OptLayers) (extra : List (String × String)) : Layer
deriving DecidableEq

inductive OptLayers where
  | none : OptLayers
  | some (ls : LayerList) : OptLayers
deriving DecidableEq

inductive LayerList where
  | nil : LayerList
  | cons (l : Layer) (rest : LayerList) : LayerList
deriving DecidableEq
end

def Layer.name : Layer → Option String
  | .mk n _ _ _ => n

def Layer.componentName : Layer → Option String
  | .mk _ c _ _ => c

def Layer.children : Layer → OptLayers
  | .mk _ _ ch _ => ch

def Layer.extra : Layer → List (String × String)
  | .mk _ _ _ e => e

/-- Result record of `findTargetLayer`:
`{ found, layer, parentLayer, path }`. -/
structure FindResult where
  found : Bool
  layer : Option Layer
  parentLayer : Option Layer
  path : List Layer
deriving DecidableEq

/-- The match test of `findTargetLayer`:
`layer.componentName === target || layer.name === target`
(componentName compared first). -/
def layerMatches (t : String) (l : Layer) : Bool :=
  l.componentName == some t || l.name == some t

/-- The layer locator `findTargetLayer`: depth-first pre-order search for
the first layer matching the target name, carrying the immediate parent
and the root-to-current path. -/
def findTargetLayer : LayerList → String → Option Layer → List Layer → FindResult
  | .nil, _, _, _ => ⟨false, none, none, []⟩
  | .cons (Layer.mk nm cn ch ex) rest, t, parent, path =>
    if layerMatches t (Layer.mk nm cn ch ex) then
      ⟨true, some (Layer.mk nm cn ch ex), parent, path ++ [Layer.mk nm cn ch ex]⟩
    else
      match ch with
      | .some ls =>
        let r := findTargetLayer ls t (some (Layer.mk nm cn ch ex))
                   (path ++ [Layer.mk nm cn ch ex])
        if r.found then r else findTargetLayer rest t parent path
      | .none => findTargetLayer rest t parent path

/-- Input of the pruner: either an actual layer array or a malformed
(non-array) value, mirroring the JS `Array.isArray` guard. -/
inductive LayersInput where
  | valid (ls : LayerList) : LayersInput
  | malformed : LayersInput
deriving DecidableEq

/-- The tree pruner `pruneLayersForTargetLayer`: empty target returns the
input unchanged; non-array input yields an empty array; otherwise run the
locator and return `[parentLayer]` when a parent exists, `[targetLayer]`
for a top-level match, and `[]` when nothing was found. -/
def pruneLayersForTargetLayer (layers : LayersInput) (t : String) : LayersInput :=
  if t == "" then layers
  else
    match layers with
    | .malformed => .valid .nil
    | .valid ls =>
      let r := findTargetLayer ls t none []
      if r.found then
        match r.layer with
        | Option.none => .valid .nil
        | Option.some tl =>
          match r.parentLayer with
          | Option.some p => .valid (.cons p .nil)
          | Option.none => .valid (.cons tl .nil)
      else .valid .nil

/-- Spec-side helper for the pruning claim: a shallow copy of a layer with
its `layers` field replaced by the given child list, all other fields
preserved. -/
def withLayers : Layer → LayerList → Layer
  | .mk n c _ e, ls => .mk n c (.some ls) e

/-- Spec-side pre-order path enumeration: for each layer visited by a
depth-first pre-order traversal (children before later siblings), the
root-to-layer path, in visit order. -/
def preorderPaths (pfx : List Layer) : LayerList → List (List Layer)
  | .nil => []
  | .cons (Layer.mk nm cn ch ex) rest =>
    (pfx ++ [Layer.mk nm cn ch ex]) ::
      ((match ch with
        | .some ls => preorderPaths (pfx ++ [Layer.mk nm cn ch ex]) ls
        | .none => []) ++ preorderPaths pfx rest)

/-- Whether a candidate path ends in a layer matching the target. -/
def pathMatches (t : String) (p : List Layer) : Bool :=
  match p.getLast? with
  | Option.some l => layerMatches t l
  | Option.none => false

/-!
Asset registry (asset registry module). The registry is a `Map` from
`layerSourceId` to an asset record; we model the map by its lookup
function. `registerAsset` skips an asset whose `layerSourceId` is absent
or empty or whose `contents` field is absent (the JS falsiness guard
`!asset.layerSourceId || !asset.contents`).
-/

structure AssetContentEntry where
  format : String
  url : String
  density : Option ℚ
deriving DecidableEq

structure Asset where
  layerSourceId : Option String
  displayName : String
  layerName : String
  contents : Option (List AssetContentEntry)
deriving DecidableEq

structure RecordContent where
  format : String
  url : String
deriving DecidableEq

structure AssetRecord where
  displayName : String
  layerName : String
  contents : List RecordContent
deriving DecidableEq

def Registry : Type := String → Option AssetRecord

/-- `reset()`: the cleared registry. -/
def resetRegistry : Registry := fun _ => none

/-- The record built by `registerAsset` from an asset's contents. -/
def mkAssetRecord (a : Asset) (cs : List AssetContentEntry) : AssetRecord :=
  ⟨a.displayName, a.layerName, cs.map (fun c => ⟨c.format, c.url⟩)⟩

/-- `registerAsset`: skip when `layerSourceId` or `contents` is falsy,
otherwise map the contents to `{format, url}` pairs and set the record
under the asset's `layerSourceId`. -/
def registerAsset (st : Registry) (a : Asset) : Registry :=
  match a.layerSourceId, a.contents with
  | Option.some k, Option.some cs =>
    if k = "" then st
    else fun k' => if k' = k then some (mkAssetRecord a cs) else st k'
  | _, _ => st

/-- `registerAssets`: register each asset in order. -/
def registerAssets (st : Registry) (assets : List Asset) : Registry :=
  assets.foldl registerAsset st

/-- `getAssetRecord`: lookup by layer source id. -/
def getAssetRecord (st : Registry) (k : String) : Option AssetRecord :=
  st k

/-- `getAssetUrl`: the url of the first content entry of the record under
`k` whose format matches, if any. -/
def getAssetUrl (st : Registry) (k : String) (fmt : String) : Option String :=
  match st k with
  | Option.none => Option.none
  | Option.some r => (r.contents.find? (fun c => c.format == fmt)).map (fun c => c.url)

/-- Membership of a value in a JSON list. -/
def memL (x : JVal) : JList → Prop
  | .nil => False
  | .cons y rest => x = y ∨ memL x rest

/-- The value a `contents` field is replaced by: the special filtered
recursion for arrays, plain recursion for any other value. -/
def contentsValue : JVal → JVal
  | JVal.arr xs => JVal.arr (preProcessContents xs)
  | w => preProcess w

/-- The value `preProcessFields` assigns to a retained field: the
`contents` special case, plain recursion otherwise. -/
def processedField (k : String) (v : JVal) : JVal :=
  if k == "contents" then contentsValue v else preProcess v

/-- Spec-side description of the locator: find the first pre-order path
whose endpoint matches; return it with its endpoint as the layer and its
second-to-last element as the parent, or the not-found result. -/
def locateSpec (t : String) (paths : List (List Layer)) : FindResult :=
  match paths.find? (pathMatches t) with
  | Option.some p => ⟨true, p.getLast?, p.dropLast.getLast?, p⟩
  | Option.none => ⟨false, none, none, []⟩

/-!
Concrete example data, used by witnesses and counterexamples: the layer
tree of the spec's worked example, a variant whose matched layer has a
sibling inside the same parent, sample `contents` entries of densities 1
and 2, and sample assets.
-/

def exampleLayerD : Layer := .mk (some "D") none .none []

def exampleLayerC : Layer :=
  .mk (some "C") none (.some (.cons exampleLayerD .nil)) [("fill", "red")]

def exampleLayerB : Layer := .mk (some "B") none .none []

def exampleLayerA : Layer :=
  .mk (some "A") none (.some (.cons exampleLayerB (.cons exampleLayerC .nil))) []

def exampleTree : LayerList := .cons exampleLayerA .nil

def siblingParent : Layer :=
  .mk (some "A") none (.some (.cons exampleLayerB (.cons exampleLayerD .nil))) [("fill", "red")]

def siblingTree : LayerList := .cons siblingParent .nil

def contentsE1 : JVal := .obj (.cons "density" (.num 1) (.cons "url" (.str "u1") .nil))

def contentsE2 : JVal := .obj (.cons "density" (.num 2) (.cons "url" (.str "u2") .nil))

def asset1 : Asset := ⟨some "k1", "d1", "l1", some []⟩

def asset2 : Asset := ⟨some "k2", "d2", "l2", some [⟨"svg", "u", none⟩]⟩

def asset3 : Asset := ⟨some "k3", "d3", "l3", none⟩

/-!
Proof infrastructure: membership predicates, per-type induction principles
derived by strong induction on `sizeOf`, and clause lemmas restating each
recursive definition one constructor at a time.
-/

theorem jlistInduct (Q : JList → Prop) (hnil : Q .nil)
    (hcons : ∀ x rest, Q rest → Q (.cons x rest)) : ∀ xs, Q xs := by
  have key : ∀ n xs, sizeOf xs ≤ n → Q xs := by
    intro n
    induction n with
    | zero =>
      intro xs hxs
      cases xs with
      | nil => exact hnil
      | cons x rest => rw [JList.cons.sizeOf_spec] at hxs; omega
    | succ n ih =>
      intro xs hxs
      cases xs with
      | nil => exact hnil
      | cons x rest =>
        refine hcons x rest (ih rest ?_)
        rw [JList.cons.sizeOf_spec] at hxs
        omega
  exact fun xs => key (sizeOf xs) xs le_rfl

theorem jfieldsInduct (Q : JFields → Prop) (hnil : Q .nil)
    (hcons : ∀ k v rest, Q rest → Q (.cons k v rest)) : ∀ fs, Q fs := by
  have key : ∀ n fs, sizeOf fs ≤ n → Q fs := by
    intro n
    induction n with
    | zero =>
      intro fs hfs
      cases fs with
      | nil => exact hnil
      | cons k v rest => rw [JFields.cons.sizeOf_spec] at hfs; omega
    | succ n ih =>
      intro fs hfs
      cases fs with
      | nil => exact hnil
      | cons k v rest =>
        refine hcons k v rest (ih rest ?_)
        rw [JFields.cons.sizeOf_spec] at hfs
        omega
  exact fun fs => key (sizeOf fs) fs le_rfl

theorem jvalStrongInduct (P : JVal → Prop)
    (h : ∀ v, (∀ w : JVal, sizeOf w < sizeOf v → P w) → P v) : ∀ v, P v := by
  have key : ∀ n (v : JVal), sizeOf v < n → P v := by
    intro n
    induction n with
    | zero => intro v hv; omega
    | succ n ih => exact fun v hv => h v (fun w hw => ih w (by omega))
  exact fun v => key (sizeOf v + 1) v (by omega)

theorem sizeOf_of_memL (x : JVal) : ∀ xs, memL x xs → sizeOf x < sizeOf xs := by
  refine jlistInduct _ ?_ ?_
  · intro h; exact absurd h (by simp [memL])
  · intro y rest ih h
    rcases h with rfl | h
    · rw [JList.cons.sizeOf_spec]; omega
    · have := ih h
      rw [JList.cons.sizeOf_spec]
      omega

theorem sizeOf_of_memField (k : String) (v : JVal) :
    ∀ fs, memField k v fs → sizeOf v < sizeOf fs := by
  refine jfieldsInduct _ ?_ ?_
  · intro h; exact absurd h (by simp [memField])
  · intro k' v' rest ih h
    rcases h with ⟨rfl, rfl⟩ | h
    · rw [JFields.cons.sizeOf_spec]; omega
    · have := ih h
      rw [JFields.cons.sizeOf_spec]
      omega

theorem sizeOf_memL_arr (x : JVal) (xs : JList) (h : memL x xs) :
    sizeOf x < sizeOf (JVal.arr xs) := by
  have := sizeOf_of_memL x xs h
  rw [JVal.arr.sizeOf_spec]
  omega

theorem sizeOf_memField_obj (k : String) (v : JVal) (fs : JFields) (h : memField k v fs) :
    sizeOf v < sizeOf (JVal.obj fs) := by
  have := sizeOf_of_memField k v fs h
  rw [JVal.obj.sizeOf_spec]
  omega

theorem sizeOf_memField_arr_obj (k : String) (xs : JList) (x : JVal) (fs : JFields)
    (hf : memField k (JVal.arr xs) fs) (hx : memL x xs) :
    sizeOf x < sizeOf (JVal.obj fs) := by
  have h1 := sizeOf_of_memL x xs hx
  have h2 := sizeOf_of_memField k (JVal.arr xs) fs hf
  rw [JVal.arr.sizeOf_spec] at h2
  rw [JVal.obj.sizeOf_spec]
  omega

theorem preProcess_null : preProcess .null = .null := rfl

theorem preProcess_bool (b : Bool) : preProcess (.bool b) = .bool b := rfl

theorem preProcess_num (q : ℚ) : preProcess (.num q) = .num q := rfl

theorem preProcess_str (s : String) : preProcess (.str s) = .str s := rfl

theorem preProcess_arr (xs : JList) : preProcess (.arr xs) = .arr (preProcessArr xs) := rfl

theorem preProcess_obj (fs : JFields) : preProcess (.obj fs) = .obj (preProcessFields fs) := rfl

theorem preProcessArr_nil : preProcessArr .nil = .nil := rfl

theorem preProcessArr_cons (x : JVal) (rest : JList) :
    preProcessArr (.cons x rest) =
      if isEmptyArr (preProcess x) then preProcessArr rest
      else .cons (preProcess x) (preProcessArr rest) := rfl

theorem preProcessFields_nil : preProcessFields .nil = .nil := rfl

theorem preProcessFields_cons (k : String) (v : JVal) (rest : JFields) :
    preProcessFields (.cons k v rest) =
      if skipKey k then preProcessFields rest
      else if isDefault k v then preProcessFields rest
      else if isEmptyArr (processedField k v) then preProcessFields rest
      else .cons k (processedField k v) (preProcessFields rest) := by
  rw [preProcessFields.eq_def]
  rfl

theorem preProcessContents_nil : preProcessContents .nil = .nil := rfl

theorem preProcessContents_cons (x : JVal) (rest : JList) :
    preProcessContents (.cons x rest) =
      if keepContentItem x then
        if isEmptyArr (preProcess x) then preProcessContents rest
        else .cons (preProcess x) (preProcessContents rest)
      else preProcessContents rest := by
  rw [preProcessContents.eq_def]

theorem arr_beq_num (xs : JList) (q : ℚ) : (JVal.arr xs == JVal.num q) = false := by
  rw [beq_eq_false_iff_ne]
  exact fun h => JVal.noConfusion h

theorem arr_beq_str (xs : JList) (s : String) : (JVal.arr xs == JVal.str s) = false := by
  rw [beq_eq_false_iff_ne]
  exact fun h => JVal.noConfusion h

theorem obj_beq_num (fs : JFields) (q : ℚ) : (JVal.obj fs == JVal.num q) = false := by
  rw [beq_eq_false_iff_ne]
  exact fun h => JVal.noConfusion h

theorem obj_beq_str (fs : JFields) (s : String) : (JVal.obj fs == JVal.str s) = false := by
  rw [beq_eq_false_iff_ne]
  exact fun h => JVal.noConfusion h

theorem isDefault_preProcess (k : String) (v : JVal) :
    isDefault k (preProcess v) = isDefault k v := by
  cases v <;> simp [preProcess_null, preProcess_bool, preProcess_num, preProcess_str,
    preProcess_arr, preProcess_obj, isDefault, arr_beq_num, arr_beq_str, obj_beq_num,
    obj_beq_str]

theorem isDefault_arr (k : String) (xs : JList) : isDefault k (JVal.arr xs) = false := by
  simp [isDefault, arr_beq_num, arr_beq_str]

theorem lookupField_preProcessFields_none (k : String) :
    ∀ fs, lookupField k fs = none → lookupField k (preProcessFields fs) = none := by
  refine jfieldsInduct _ ?_ ?_
  · intro _; rfl
  · intro k' v rest ih h
    rw [lookupField] at h
    by_cases hk : (k' == k) = true
    · rw [if_pos hk] at h; exact absurd h (by simp)
    · rw [if_neg hk] at h
      rw [preProcessFields_cons]
      by_cases hs : skipKey k' = true
      · rw [if_pos hs]; exact ih h
      · rw [if_neg hs]
        by_cases hd : isDefault k' v = true
        · rw [if_pos hd]; exact ih h
        · rw [if_neg hd]
          by_cases he : isEmptyArr (processedField k' v) = true
          · rw [if_pos he]; exact ih h
          · rw [if_neg he, lookupField, if_neg hk]; exact ih h

theorem lookupField_density_one :
    ∀ fs, lookupField "density" fs = some (JVal.num 1) →
      lookupField "density" (preProcessFields fs) = some (JVal.num 1) := by
  refine jfieldsInduct _ ?_ ?_
  · intro h; exact absurd h (by simp [lookupField])
  · intro k' v rest ih h
    rw [lookupField] at h
    by_cases hk : (k' == "density") = true
    · rw [if_pos hk] at h
      have hv : v = JVal.num 1 := by injection h
      subst hv
      have hk' : k' = "density" := by simpa using hk
      subst hk'
      rw [preProcessFields_cons]
      rw [if_neg (by decide), if_neg (by decide),
        if_neg (by simp [processedField, preProcess_num, isEmptyArr]),
        lookupField, if_pos (by decide)]
      simp [processedField, preProcess_num]
    · rw [if_neg hk] at h
      rw [preProcessFields_cons]
      by_cases hs : skipKey k' = true
      · rw [if_pos hs]; exact ih h
      · rw [if_neg hs]
        by_cases hd : isDefault k' v = true
        · rw [if_pos hd]; exact ih h
        · rw [if_neg hd]
          by_cases he : isEmptyArr (processedField k' v) = true
          · rw [if_pos he]; exact ih h
          · rw [if_neg he, lookupField, if_neg hk]; exact ih h

theorem keepContentItem_preProcess (x : JVal) (hkeep : keepContentItem x = true)
    (hne : isEmptyArr (preProcess x) = false) :
    keepContentItem (preProcess x) = true := by
  cases x with
  | null => exact hkeep
  | bool b => exact hkeep
  | num q => exact hkeep
  | str s => exact hkeep
  | arr xs =>
    rw [preProcess_arr]
    rw [preProcess_arr] at hne
    cases h : preProcessArr xs with
    | nil => rw [h] at hne; exact absurd hne (by simp [isEmptyArr])
    | cons y rest => rfl
  | obj fs =>
    rw [preProcess_obj]
    rw [keepContentItem] at hkeep ⊢
    cases h : lookupField "density" fs with
    | none => rw [lookupField_preProcessFields_none _ fs h]
    | some d =>
      rw [h] at hkeep
      have hd : d = JVal.num 1 := by simpa using hkeep
      subst hd
      rw [lookupField_density_one fs h]
      simp

theorem preProcessArr_idem_aux :
    ∀ xs : JList, (∀ x, memL x xs → preProcess (preProcess x) = preProcess x) →
      preProcessArr (preProcessArr xs) = preProcessArr xs := by
  refine jlistInduct _ ?_ ?_
  · intro _; rfl
  · intro x rest ih h
    have hx := h x (Or.inl rfl)
    have hr := ih (fun y hy => h y (Or.inr hy))
    by_cases he : isEmptyArr (preProcess x) = true
    · rw [preProcessArr_cons, if_pos he, hr]
    · rw [preProcessArr_cons, if_neg (by simp [he]), preProcessArr_cons, hx,
        if_neg (by simp [he]), hr]

theorem preProcessContents_idem_aux :
    ∀ xs : JList, (∀ x, memL x xs → preProcess (preProcess x) = preProcess x) →
      preProcessContents (preProcessContents xs) = preProcessContents xs := by
  refine jlistInduct _ ?_ ?_
  · intro _; rfl
  · intro x rest ih h
    have hx := h x (Or.inl rfl)
    have hr := ih (fun y hy => h y (Or.inr hy))
    by_cases hkeep : keepContentItem x = true
    · by_cases he : isEmptyArr (preProcess x) = true
      · rw [preProcessContents_cons, if_pos hkeep, if_pos he, hr]
      · rw [preProcessContents_cons, if_pos hkeep, if_neg (by simp [he]),
          preProcessContents_cons,
          if_pos (keepContentItem_preProcess x hkeep (by simp [he])), hx,
          if_neg (by simp [he]), hr]
    · rw [preProcessContents_cons, if_neg hkeep, hr]

theorem contentsValue_null : contentsValue .null = .null := rfl

theorem contentsValue_bool (b : Bool) : contentsValue (.bool b) = .bool b := rfl

theorem contentsValue_num (q : ℚ) : contentsValue (.num q) = .num q := rfl

theorem contentsValue_str (s : String) : contentsValue (.str s) = .str s := rfl

theorem contentsValue_arr (xs : JList) :
    contentsValue (.arr xs) = .arr (preProcessContents xs) := rfl

theorem contentsValue_obj (fs : JFields) :
    contentsValue (.obj fs) = preProcess (.obj fs) := rfl

theorem processedField_not_contents (k : String) (v : JVal) (hc : (k == "contents") = false) :
    processedField k v = preProcess v := by
  rw [processedField, if_neg (by simp [hc])]

theorem processedField_contents (v : JVal) :
    processedField "contents" v = contentsValue v := by
  rw [processedField, if_pos (by decide)]

theorem processedField_idem_aux (k : String) (v : JVal)
    (h1 : preProcess (preProcess v) = preProcess v)
    (h2 : ∀ xs, v = JVal.arr xs → ∀ x, memL x xs → preProcess (preProcess x) = preProcess x) :
    processedField k (processedField k v) = processedField k v := by
  by_cases hc : (k == "contents") = true
  · have hk : k = "contents" := by simpa using hc
    subst hk
    rw [processedField_contents, processedField_contents]
    cases v with
    | arr xs =>
      rw [contentsValue_arr, contentsValue_arr,
        preProcessContents_idem_aux xs (h2 xs rfl)]
    | null => rfl
    | bool b => rfl
    | num q => rfl
    | str s => rfl
    | obj fs =>
      rw [contentsValue_obj, preProcess_obj, contentsValue_obj]
      rw [preProcess_obj, preProcess_obj] at h1
      exact h1
  · rw [processedField_not_contents k v (by simpa using hc),
      processedField_not_contents k (preProcess v) (by simpa using hc), h1]

theorem isDefault_processedField (k : String) (v : JVal) :
    isDefault k (processedField k v) = isDefault k v := by
  by_cases hc : (k == "contents") = true
  · have hk : k = "contents" := by simpa using hc
    subst hk
    rw [processedField_contents]
    cases v with
    | arr xs => rw [contentsValue_arr, isDefault_arr, isDefault_arr]
    | null => rfl
    | bool b => rfl
    | num q => rfl
    | str s => rfl
    | obj fs => rw [contentsValue_obj, isDefault_preProcess]
  · rw [processedField_not_contents k v (by simpa using hc), isDefault_preProcess]

theorem preProcessFields_idem_aux :
    ∀ fs : JFields,
      (∀ k v, memField k v fs → preProcess (preProcess v) = preProcess v) →
      (∀ k xs, memField k (JVal.arr xs) fs →
        ∀ x, memL x xs → preProcess (preProcess x) = preProcess x) →
      preProcessFields (preProcessFields fs) = preProcessFields fs := by
  refine jfieldsInduct _ ?_ ?_
  · intro _ _; rfl
  · intro k v rest ih h1 h2
    have ihr := ih (fun k' v' hm => h1 k' v' (Or.inr hm))
      (fun k' xs hm x hx => h2 k' xs (Or.inr hm) x hx)
    by_cases hs : skipKey k = true
    · rw [preProcessFields_cons, if_pos hs, ihr]
    · by_cases hd : isDefault k v = true
      · rw [preProcessFields_cons, if_neg hs, if_pos hd, ihr]
      · by_cases he : isEmptyArr (processedField k v) = true
        · rw [preProcessFields_cons, if_neg hs, if_neg hd, if_pos he, ihr]
        · have hpf := processedField_idem_aux k v (h1 k v (Or.inl ⟨rfl, rfl⟩))
            (fun xs hv x hx => by
              subst hv
              exact h2 k xs (Or.inl ⟨rfl, rfl⟩) x hx)
          rw [preProcessFields_cons, if_neg hs, if_neg hd, if_neg he,
            preProcessFields_cons, if_neg hs,
            if_neg (by rw [isDefault_processedField]; exact hd),
            if_neg (by rw [hpf]; exact he), hpf, ihr]

theorem preProcess_idem_helper : ∀ d : JVal, preProcess (preProcess d) = preProcess d := by
  refine jvalStrongInduct _ ?_
  intro v IH
  cases v with
  | null => rfl
  | bool b => rfl
  | num q => rfl
  | str s => rfl
  | arr xs =>
    rw [preProcess_arr, preProcess_arr,
      preProcessArr_idem_aux xs (fun x hx => IH x (sizeOf_memL_arr x xs hx))]
  | obj fs =>
    rw [preProcess_obj, preProcess_obj,
      preProcessFields_idem_aux fs
        (fun k v hm => IH v (sizeOf_memField_obj k v fs hm))
        (fun k xs hm x hx => IH x (sizeOf_memField_arr_obj k xs x fs hm hx))]

theorem containsKey_null (t : String) : containsKey t .null = false := rfl

theorem containsKey_arr (t : String) (xs : JList) :
    containsKey t (.arr xs) = containsKeyList t xs := rfl

theorem containsKey_obj (t : String) (fs : JFields) :
    containsKey t (.obj fs) = containsKeyFields t fs := rfl

theorem containsKeyList_cons (t : String) (x : JVal) (rest : JList) :
    containsKeyList t (.cons x rest) = (containsKey t x || containsKeyList t rest) := rfl

theorem containsKeyFields_cons (t : String) (k : String) (v : JVal) (rest : JFields) :
    containsKeyFields t (.cons k v rest) =
      (k == t || containsKey t v || containsKeyFields t rest) := rfl

theorem skipKey_ne {k k' : String} (hk : skipKey k = true) (hk' : skipKey k' = false) :
    (k' == k) = false := by
  rcases eq_or_ne k' k with h | h
  · subst h; rw [hk] at hk'; exact absurd hk' (by simp)
  · simp [h]

theorem containsKeyList_preProcessArr_aux :
    ∀ xs : JList,
      (∀ x, memL x xs → ∀ k, skipKey k = true → containsKey k (preProcess x) = false) →
      ∀ k, skipKey k = true → containsKeyList k (preProcessArr xs) = false := by
  refine jlistInduct _ ?_ ?_
  · intro _ _ _; rfl
  · intro x rest ih h k hk
    have hx := h x (Or.inl rfl) k hk
    have hr := ih (fun y hy => h y (Or.inr hy)) k hk
    by_cases he : isEmptyArr (preProcess x) = true
    · rw [preProcessArr_cons, if_pos he, hr]
    · rw [preProcessArr_cons, if_neg (by simp [he]), containsKeyList_cons, hx, hr]
      rfl

theorem containsKeyList_preProcessContents_aux :
    ∀ xs : JList,
      (∀ x, memL x xs → ∀ k, skipKey k = true → containsKey k (preProcess x) = false) →
      ∀ k, skipKey k = true → containsKeyList k (preProcessContents xs) = false := by
  refine jlistInduct _ ?_ ?_
  · intro _ _ _; rfl
  · intro x rest ih h k hk
    have hx := h x (Or.inl rfl) k hk
    have hr := ih (fun y hy => h y (Or.inr hy)) k hk
    by_cases hkeep : keepContentItem x = true
    · by_cases he : isEmptyArr (preProcess x) = true
      · rw [preProcessContents_cons, if_pos hkeep, if_pos he, hr]
      · rw [preProcessContents_cons, if_pos hkeep, if_neg (by simp [he]),
          containsKeyList_cons, hx, hr]
        rfl
    · rw [preProcessContents_cons, if_neg hkeep, hr]

theorem containsKey_processedField_aux (k' : String) (v : JVal)
    (h1 : ∀ k, skipKey k = true → containsKey k (preProcess v) = false)
    (h2 : ∀ xs, v = JVal.arr xs →
      ∀ x, memL x xs → ∀ k, skipKey k = true → containsKey k (preProcess x) = false)
    (k : String) (hk : skipKey k = true) :
    containsKey k (processedField k' v) = false := by
  by_cases hc : (k' == "contents") = true
  · have hk' : k' = "contents" := by simpa using hc
    subst hk'
    rw [processedField_contents]
    cases v with
    | arr xs =>
      rw [contentsValue_arr, containsKey_arr]
      exact containsKeyList_preProcessContents_aux xs (h2 xs rfl) k hk
    | null => exact h1 k hk
    | bool b => exact h1 k hk
    | num q => exact h1 k hk
    | str s => exact h1 k hk
    | obj fs => rw [contentsValue_obj]; exact h1 k hk
  · rw [processedField_not_contents k' v (by simpa using hc)]
    exact h1 k hk

theorem containsKeyFields_preProcessFields_aux :
    ∀ fs : JFields,
      (∀ k' v, memField k' v fs →
        ∀ k, skipKey k = true → containsKey k (preProcess v) = false) →
      (∀ k' xs, memField k' (JVal.arr xs) fs →
        ∀ x, memL x xs → ∀ k, skipKey k = true → containsKey k (preProcess x) = false) →
      ∀ k, skipKey k = true → containsKeyFields k (preProcessFields fs) = false := by
  refine jfieldsInduct _ ?_ ?_
  · intro _ _ _ _; rfl
  · intro k' v rest ih h1 h2 k hk
    have ihr := ih (fun a b hm => h1 a b (Or.inr hm))
      (fun a xs hm x hx => h2 a xs (Or.inr hm) x hx) k hk
    by_cases hs : skipKey k' = true
    · rw [preProcessFields_cons, if_pos hs]; exact ihr
    · by_cases hd : isDefault k' v = true
      · rw [preProcessFields_cons, if_neg hs, if_pos hd]; exact ihr
      · by_cases he : isEmptyArr (processedField k' v) = true
        · rw [preProcessFields_cons, if_neg hs, if_neg hd, if_pos he]; exact ihr
        · rw [preProcessFields_cons, if_neg hs, if_neg hd, if_neg he,
            containsKeyFields_cons, skipKey_ne hk (by simpa using hs),
            containsKey_processedField_aux k' v (h1 k' v (Or.inl ⟨rfl, rfl⟩))
              (fun xs hv x hx => by
                subst hv
                exact h2 k' xs (Or.inl ⟨rfl, rfl⟩) x hx) k hk, ihr]
          rfl

theorem containsKey_preProcess_skip :
    ∀ d : JVal, ∀ k, skipKey k = true → containsKey k (preProcess d) = false := by
  refine jvalStrongInduct _ ?_
  intro v IH
  intro k hk
  cases v with
  | null => rfl
  | bool b => rfl
  | num q => rfl
  | str s => rfl
  | arr xs =>
    rw [preProcess_arr, containsKey_arr]
    exact containsKeyList_preProcessArr_aux xs
      (fun x hx => IH x (sizeOf_memL_arr x xs hx)) k hk
  | obj fs =>
    rw [preProcess_obj, containsKey_obj]
    exact containsKeyFields_preProcessFields_aux fs
      (fun a b hm => IH b (sizeOf_memField_obj a b fs hm))
      (fun a xs hm x hx => IH x (sizeOf_memField_arr_obj a xs x fs hm hx)) k hk

theorem removeMetadata_arr (xs : JList) :
    removeMetadata (.arr xs) = .arr (removeMetadataList xs) := rfl

theorem removeMetadata_obj (fs : JFields) :
    removeMetadata (.obj fs) = .obj (removeMetadataFields fs) := rfl

theorem removeMetadataList_cons (x : JVal) (rest : JList) :
    removeMetadataList (.cons x rest) = .cons (removeMetadata x) (removeMetadataList rest) := rfl

theorem removeMetadataFields_cons (k : String) (v : JVal) (rest : JFields) :
    removeMetadataFields (.cons k v rest) =
      if k == "metadata" then removeMetadataFields rest
      else .cons k (removeMetadata v) (removeMetadataFields rest) := rfl

theorem containsKeyList_removeMetadata_aux :
    ∀ xs : JList,
      (∀ x, memL x xs → containsKey "metadata" (removeMetadata x) = false) →
      containsKeyList "metadata" (removeMetadataList xs) = false := by
  refine jlistInduct _ ?_ ?_
  · intro _; rfl
  · intro x rest ih h
    rw [removeMetadataList_cons, containsKeyList_cons, h x (Or.inl rfl),
      ih (fun y hy => h y (Or.inr hy))]
    rfl

theorem containsKeyFields_removeMetadata_aux :
    ∀ fs : JFields,
      (∀ k v, memField k v fs → containsKey "metadata" (removeMetadata v) = false) →
      containsKeyFields "metadata" (removeMetadataFields fs) = false := by
  refine jfieldsInduct _ ?_ ?_
  · intro _; rfl
  · intro k v rest ih h
    have ihr := ih (fun a b hm => h a b (Or.inr hm))
    by_cases hm : (k == "metadata") = true
    · rw [removeMetadataFields_cons, if_pos hm]; exact ihr
    · rw [removeMetadataFields_cons, if_neg hm, containsKeyFields_cons,
        (by simpa using hm : (k == "metadata") = false),
        h k v (Or.inl ⟨rfl, rfl⟩), ihr]
      rfl

theorem containsKey_removeMetadata :
    ∀ d : JVal, containsKey "metadata" (removeMetadata d) = false := by
  refine jvalStrongInduct _ ?_
  intro v IH
  cases v with
  | null => rfl
  | bool b => rfl
  | num q => rfl
  | str s => rfl
  | arr xs =>
    rw [removeMetadata_arr, containsKey_arr]
    exact containsKeyList_removeMetadata_aux xs
      (fun x hx => IH x (sizeOf_memL_arr x xs hx))
  | obj fs =>
    rw [removeMetadata_obj, containsKey_obj]
    exact containsKeyFields_removeMetadata_aux fs
      (fun a b hm => IH b (sizeOf_memField_obj a b fs hm))

theorem memField_removeMetadataFields :
    ∀ fs : JFields, ∀ k w,
      (memField k w (removeMetadataFields fs) ↔
        ((k == "metadata") = false ∧ ∃ v, memField k v fs ∧ w = removeMetadata v)) := by
  refine jfieldsInduct _ ?_ ?_
  · intro k w
    constructor
    · intro h; exact absurd h (by simp [memField])
    · rintro ⟨-, v, hv, -⟩; exact absurd hv (by simp [memField])
  · intro k' v' rest ih k w
    by_cases hm : (k' == "metadata") = true
    · rw [removeMetadataFields_cons, if_pos hm, ih]
      constructor
      · rintro ⟨hne, v, hv, hw⟩
        exact ⟨hne, v, Or.inr hv, hw⟩
      · rintro ⟨hne, v, hv, hw⟩
        rcases hv with ⟨rfl, rfl⟩ | hv
        · rw [hm] at hne; exact absurd hne (by simp)
        · exact ⟨hne, v, hv, hw⟩
    · rw [removeMetadataFields_cons, if_neg hm]
      constructor
      · intro h
        rcases h with ⟨rfl, rfl⟩ | h
        · exact ⟨by simpa using hm, v', Or.inl ⟨rfl, rfl⟩, rfl⟩
        · rcases (ih k w).mp h with ⟨hne, v, hv, hw⟩
          exact ⟨hne, v, Or.inr hv, hw⟩
      · rintro ⟨hne, v, hv, hw⟩
        rcases hv with ⟨rfl, rfl⟩ | hv
        · exact Or.inl ⟨rfl, hw⟩
        · exact Or.inr ((ih k w).mpr ⟨hne, v, hv, hw⟩)

theorem preProcessFields_default_drop (k : String) (v : JVal) (fs : JFields)
    (hd : isDefault k v = true) :
    preProcessFields (.cons k v fs) = preProcessFields fs := by
  rw [preProcessFields_cons]
  by_cases hs : skipKey k = true
  · rw [if_pos hs]
  · rw [if_neg hs, if_pos hd]

theorem memField_preProcessFields_not_default :
    ∀ fs : JFields, ∀ k v, memField k v (preProcessFields fs) → isDefault k v = false := by
  refine jfieldsInduct _ ?_ ?_
  · intro k v h; exact absurd h (by simp [memField])
  · intro k' v' rest ih k v h
    by_cases hs : skipKey k' = true
    · rw [preProcessFields_cons, if_pos hs] at h; exact ih k v h
    · by_cases hd : isDefault k' v' = true
      · rw [preProcessFields_cons, if_neg hs, if_pos hd] at h; exact ih k v h
      · by_cases he : isEmptyArr (processedField k' v') = true
        · rw [preProcessFields_cons, if_neg hs, if_neg hd, if_pos he] at h; exact ih k v h
        · rw [preProcessFields_cons, if_neg hs, if_neg hd, if_neg he] at h
          rcases h with ⟨rfl, rfl⟩ | h
          · rw [isDefault_processedField]
            simpa using hd
          · exact ih k v h

theorem preProcessFields_opacity_keep (q : ℚ) (fs : JFields) (hq : q ≠ 1) :
    preProcessFields (.cons "opacity" (.num q) fs) =
      .cons "opacity" (.num q) (preProcessFields fs) := by
  rw [preProcessFields_cons, if_neg (by decide),
    if_neg (by simp [isDefault, hq]),
    processedField_not_contents "opacity" (.num q) (by decide), preProcess_num]
  rfl

theorem preProcessContents_eq_composed :
    ∀ xs : JList, preProcessContents xs =
      filterJ (fun v => !isEmptyArr v) (mapJ preProcess (filterJ keepContentItem xs)) := by
  refine jlistInduct _ ?_ ?_
  · rfl
  · intro x rest ih
    rw [preProcessContents_cons]
    by_cases hkeep : keepContentItem x = true
    · rw [if_pos hkeep, filterJ, if_pos hkeep, mapJ, filterJ]
      by_cases he : isEmptyArr (preProcess x) = true
      · rw [if_pos he, if_neg (by simp [he]), ih]
      · rw [if_neg (by simp [he]), if_pos (by simp [he]), ih]
    · rw [if_neg hkeep, filterJ, if_neg hkeep, ih]

theorem keepContentItem_eq_spec (v : JVal) :
    keepContentItem v = (keepByDensity v && !isEmptyArr v) := by
  cases v with
  | null => rfl
  | bool b => rfl
  | num q => rfl
  | str s => rfl
  | obj fs => simp [keepContentItem, keepByDensity, isEmptyArr]
  | arr xs =>
    cases xs with
    | nil => rfl
    | cons y rest => rfl

theorem preProcessFields_contents_drop (xs : JList) (fs : JFields)
    (h : preProcessContents xs = .nil) :
    preProcessFields (.cons "contents" (.arr xs) fs) = preProcessFields fs := by
  rw [preProcessFields_cons, if_neg (by decide), if_neg (by simp [isDefault_arr]),
    if_pos ?_]
  rw [processedField_contents, contentsValue_arr, h]
  rfl

theorem preProcessFields_contents_keep (xs : JList) (fs : JFields)
    (h : preProcessContents xs ≠ .nil) :
    preProcessFields (.cons "contents" (.arr xs) fs) =
      .cons "contents" (.arr (preProcessContents xs)) (preProcessFields fs) := by
  rw [preProcessFields_cons, if_neg (by decide), if_neg (by simp [isDefault_arr]),
    if_neg ?_, processedField_contents, contentsValue_arr]
  rw [processedField_contents, contentsValue_arr]
  cases hc : preProcessContents xs with
  | nil => exact absurd hc h
  | cons y rest => simp [isEmptyArr]

theorem findTargetLayer_nil (t : String) (parent : Option Layer) (path : List Layer) :
    findTargetLayer .nil t parent path = ⟨false, none, none, []⟩ := rfl

theorem findTargetLayer_cons_none (nm cn : Option String) (ex : List (String × String))
    (rest : LayerList) (t : String) (parent : Option Layer) (path : List Layer) :
    findTargetLayer (.cons (Layer.mk nm cn .none ex) rest) t parent path =
      if layerMatches t (Layer.mk nm cn .none ex) then
        ⟨true, some (Layer.mk nm cn .none ex), parent, path ++ [Layer.mk nm cn .none ex]⟩
      else findTargetLayer rest t parent path := by
  rw [findTargetLayer.eq_def]

theorem findTargetLayer_cons_some (nm cn : Option String) (ls : LayerList)
    (ex : List (String × String)) (rest : LayerList) (t : String)
    (parent : Option Layer) (path : List Layer) :
    findTargetLayer (.cons (Layer.mk nm cn (.some ls) ex) rest) t parent path =
      if layerMatches t (Layer.mk nm cn (.some ls) ex) then
        ⟨true, some (Layer.mk nm cn (.some ls) ex), parent,
          path ++ [Layer.mk nm cn (.some ls) ex]⟩
      else
        if (findTargetLayer ls t (some (Layer.mk nm cn (.some ls) ex))
              (path ++ [Layer.mk nm cn (.some ls) ex])).found then
          findTargetLayer ls t (some (Layer.mk nm cn (.some ls) ex))
            (path ++ [Layer.mk nm cn (.some ls) ex])
        else findTargetLayer rest t parent path := by
  rw [findTargetLayer.eq_def]

theorem preorderPaths_nil (pfx : List Layer) : preorderPaths pfx .nil = [] := rfl

theorem preorderPaths_cons_none (pfx : List Layer) (nm cn : Option String)
    (ex : List (String × String)) (rest : LayerList) :
    preorderPaths pfx (.cons (Layer.mk nm cn .none ex) rest) =
      (pfx ++ [Layer.mk nm cn .none ex]) :: preorderPaths pfx rest := by
  rw [preorderPaths.eq_def]
  rfl

theorem preorderPaths_cons_some (pfx : List Layer) (nm cn : Option String)
    (ls : LayerList) (ex : List (String × String)) (rest : LayerList) :
    preorderPaths pfx (.cons (Layer.mk nm cn (.some ls) ex) rest) =
      (pfx ++ [Layer.mk nm cn (.some ls) ex]) ::
        (preorderPaths (pfx ++ [Layer.mk nm cn (.some ls) ex]) ls ++ preorderPaths pfx rest) := by
  rw [preorderPaths.eq_def]

theorem layerListStrongInduct (Q : LayerList → Prop)
    (h : ∀ ls, (∀ ms : LayerList, sizeOf ms < sizeOf ls → Q ms) → Q ls) : ∀ ls, Q ls := by
  have key : ∀ n (ls : LayerList), sizeOf ls < n → Q ls := by
    intro n
    induction n with
    | zero => intro ls hls; omega
    | succ n ih => exact fun ls hls => h ls (fun ms hm => ih ms (by omega))
  exact fun ls => key (sizeOf ls + 1) ls (by omega)

theorem sizeOf_children_lt (nm cn : Option String) (ls : LayerList)
    (ex : List (String × String)) (rest : LayerList) :
    sizeOf ls < sizeOf (LayerList.cons (Layer.mk nm cn (.some ls) ex) rest) := by
  rw [LayerList.cons.sizeOf_spec, Layer.mk.sizeOf_spec, OptLayers.some.sizeOf_spec]
  omega

theorem sizeOf_rest_lt (l : Layer) (rest : LayerList) :
    sizeOf rest < sizeOf (LayerList.cons l rest) := by
  rw [LayerList.cons.sizeOf_spec]
  omega

theorem locateSpec_cons_skip (t : String) (p : List Layer) (ps : List (List Layer))
    (h : pathMatches t p = false) : locateSpec t (p :: ps) = locateSpec t ps := by
  rw [locateSpec, locateSpec, List.find?_cons_of_neg _ (by simp [h])]

theorem locateSpec_cons_match (t : String) (p : List Layer) (ps : List (List Layer))
    (h : pathMatches t p = true) :
    locateSpec t (p :: ps) = ⟨true, p.getLast?, p.dropLast.getLast?, p⟩ := by
  rw [locateSpec, List.find?_cons_of_pos _ h]

theorem locateSpec_append_found (t : String) (ps1 ps2 : List (List Layer))
    (h : (locateSpec t ps1).found = true) :
    locateSpec t (ps1 ++ ps2) = locateSpec t ps1 := by
  rw [locateSpec] at h ⊢
  rw [locateSpec, List.find?_append]
  cases hf : ps1.find? (pathMatches t) with
  | some p => rfl
  | none => rw [hf] at h; exact absurd h (by simp)

theorem locateSpec_append_not_found (t : String) (ps1 ps2 : List (List Layer))
    (h : (locateSpec t ps1).found = false) :
    locateSpec t (ps1 ++ ps2) = locateSpec t ps2 := by
  rw [locateSpec] at h
  rw [locateSpec, List.find?_append, locateSpec]
  cases hf : ps1.find? (pathMatches t) with
  | some p => rw [hf] at h; exact absurd h (by simp)
  | none => rfl

theorem pathMatches_concat (t : String) (p : List Layer) (l : Layer) :
    pathMatches t (p ++ [l]) = layerMatches t l := by
  simp [pathMatches, List.getLast?_concat]

theorem findTargetLayer_eq_locateSpec :
    ∀ ls : LayerList, ∀ (t : String) (path0 : List Layer),
      findTargetLayer ls t path0.getLast? path0 = locateSpec t (preorderPaths path0 ls) := by
  refine layerListStrongInduct _ ?_
  intro ls IH t path0
  cases ls with
  | nil => rfl
  | cons l rest =>
    obtain ⟨nm, cn, ch, ex⟩ := l
    cases ch with
    | none =>
      rw [findTargetLayer_cons_none, preorderPaths_cons_none]
      by_cases hm : layerMatches t (Layer.mk nm cn .none ex) = true
      · rw [if_pos hm, locateSpec_cons_match t _ _ (by rw [pathMatches_concat]; exact hm),
          List.getLast?_concat, List.dropLast_concat]
      · rw [if_neg hm,
          locateSpec_cons_skip t _ _ (by rw [pathMatches_concat]; simpa using hm)]
        exact IH rest (sizeOf_rest_lt _ _) t path0
    | some ls' =>
      rw [findTargetLayer_cons_some, preorderPaths_cons_some]
      by_cases hm : layerMatches t (Layer.mk nm cn (.some ls') ex) = true
      · rw [if_pos hm, locateSpec_cons_match t _ _ (by rw [pathMatches_concat]; exact hm),
          List.getLast?_concat, List.dropLast_concat]
      · rw [if_neg hm,
          locateSpec_cons_skip t _ _ (by rw [pathMatches_concat]; simpa using hm)]
        have hrec : findTargetLayer ls' t (some (Layer.mk nm cn (.some ls') ex))
            (path0 ++ [Layer.mk nm cn (.some ls') ex]) =
            locateSpec t (preorderPaths (path0 ++ [Layer.mk nm cn (.some ls') ex]) ls') := by
          have h := IH ls' (sizeOf_children_lt nm cn ls' ex rest) t
            (path0 ++ [Layer.mk nm cn (.some ls') ex])
          rwa [List.getLast?_concat] at h
        rw [hrec]
        by_cases hf : (locateSpec t
            (preorderPaths (path0 ++ [Layer.mk nm cn (.some ls') ex]) ls')).found = true
        · rw [if_pos hf, locateSpec_append_found t _ _ hf]
        · rw [if_neg (by simpa using hf),
            locateSpec_append_not_found t _ _ (by simpa using hf)]
          exact IH rest (sizeOf_rest_lt _ _) t path0

theorem locate_found_inv (ls : LayerList) (t : String)
    (h : (findTargetLayer ls t none []).found = true) :
    ∃ p, (preorderPaths [] ls).find? (pathMatches t) = some p ∧
      findTargetLayer ls t none [] =
        ⟨true, p.getLast?, p.dropLast.getLast?, p⟩ ∧
      pathMatches t p = true := by
  have heq : findTargetLayer ls t none [] = locateSpec t (preorderPaths [] ls) :=
    findTargetLayer_eq_locateSpec ls t []
  rw [locateSpec] at heq
  cases hf : (preorderPaths [] ls).find? (pathMatches t) with
  | none =>
    rw [hf] at heq
    rw [heq] at h
    exact absurd h (by simp)
  | some p =>
    rw [hf] at heq
    exact ⟨p, rfl, heq, List.find?_some hf⟩

theorem locate_not_found_inv (ls : LayerList) (t : String)
    (h : (findTargetLayer ls t none []).found = false) :
    findTargetLayer ls t none [] = ⟨false, none, none, []⟩ := by
  have heq : findTargetLayer ls t none [] = locateSpec t (preorderPaths [] ls) :=
    findTargetLayer_eq_locateSpec ls t []
  rw [locateSpec] at heq
  cases hf : (preorderPaths [] ls).find? (pathMatches t) with
  | none => rw [hf] at heq; exact heq
  | some p => rw [hf] at heq; rw [heq] at h; exact absurd h (by simp)

theorem dropLast_eq_nil_iff_len {α : Type} (p : List α) :
    p.dropLast = [] ↔ p.length ≤ 1 := by
  rw [← List.length_eq_zero, List.length_dropLast]
  omega

theorem prune_empty_target (x : LayersInput) :
    pruneLayersForTargetLayer x "" = x := by
  rw [pruneLayersForTargetLayer.eq_def, if_pos (by decide)]

theorem prune_malformed (t : String) (h : t ≠ "") :
    pruneLayersForTargetLayer .malformed t = .valid .nil := by
  rw [pruneLayersForTargetLayer.eq_def, if_neg (by simp [h])]

theorem prune_valid_eq (ls : LayerList) (t : String) (ht : (t == "") = false) :
    pruneLayersForTargetLayer (.valid ls) t =
      (if (findTargetLayer ls t none []).found = true then
        match (findTargetLayer ls t none []).layer with
        | Option.none => LayersInput.valid .nil
        | Option.some tl =>
          match (findTargetLayer ls t none []).parentLayer with
          | Option.some p => LayersInput.valid (.cons p .nil)
          | Option.none => LayersInput.valid (.cons tl .nil)
      else LayersInput.valid .nil) := by
  rw [pruneLayersForTargetLayer.eq_def, if_neg (by simp [ht])]

theorem prune_not_found (ls : LayerList) (t : String) (ht : t ≠ "")
    (h : (findTargetLayer ls t none []).found = false) :
    pruneLayersForTargetLayer (.valid ls) t = .valid .nil := by
  rw [prune_valid_eq ls t (by simp [ht]), if_neg (by simp [h])]

theorem prune_found_parent (ls : LayerList) (t : String) (p : Layer) (ht : t ≠ "")
    (hf : (findTargetLayer ls t none []).found = true)
    (hp : (findTargetLayer ls t none []).parentLayer = some p) :
    pruneLayersForTargetLayer (.valid ls) t = .valid (.cons p .nil) := by
  obtain ⟨q, -, heq, hm⟩ := locate_found_inv ls t hf
  have hl' : (findTargetLayer ls t none []).layer = q.getLast? := by rw [heq]
  rw [pathMatches] at hm
  cases hl : q.getLast? with
  | none => rw [hl] at hm; exact absurd hm (by simp)
  | some tl =>
    rw [hl] at hl'
    rw [prune_valid_eq ls t (by simp [ht]), if_pos hf, hl', hp]

theorem prune_found_no_parent (ls : LayerList) (t : String) (tl : Layer) (ht : t ≠ "")
    (hf : (findTargetLayer ls t none []).found = true)
    (hp : (findTargetLayer ls t none []).parentLayer = none)
    (hl : (findTargetLayer ls t none []).layer = some tl) :
    pruneLayersForTargetLayer (.valid ls) t = .valid (.cons tl .nil) := by
  rw [prune_valid_eq ls t (by simp [ht]), if_pos hf, hl, hp]

theorem registerAsset_contents_none (st : Registry) (a : Asset)
    (h : a.contents = none) : registerAsset st a = st := by
  obtain ⟨lsid, dn, ln, cont⟩ := a
  cases cont with
  | none => cases lsid <;> rfl
  | some cs => exact absurd h (by simp)

theorem registerAsset_key_none (st : Registry) (a : Asset)
    (h : a.layerSourceId = none) : registerAsset st a = st := by
  obtain ⟨lsid, dn, ln, cont⟩ := a
  cases lsid with
  | none => cases cont <;> rfl
  | some k => exact absurd h (by simp)

theorem registerAsset_lookup (st : Registry) (a : Asset) (k : String)
    (cs : List AssetContentEntry) (hk : a.layerSourceId = some k) (hne : k ≠ "")
    (hc : a.contents = some cs) :
    getAssetRecord (registerAsset st a) k = some (mkAssetRecord a cs) := by
  obtain ⟨lsid, dn, ln, cont⟩ := a
  cases lsid with
  | none => exact absurd hk (by simp)
  | some k' =>
    cases cont with
    | none => exact absurd hc (by simp)
    | some cs' =>
      have hkk : k' = k := by simpa using hk
      have hcc : cs' = cs := by simpa using hc
      subst hkk
      subst hcc
      rw [getAssetRecord, registerAsset]
      simp [hne]

theorem getAssetUrl_empty_contents (st : Registry) (k fmt dn ln : String)
    (h : st k = some ⟨dn, ln, []⟩) : getAssetUrl st k fmt = none := by
  rw [getAssetUrl, h]
  rfl

/-- Claim C1 counterexample: on a tree whose matched layer `D` has a
sibling `B` inside parent `A`, the pruner returns the parent with its
`layers` field untouched (both children kept), not a copy whose `layers`
holds only the matched node, so the claim is false at this input. -/
theorem C1_counterexample :
    (findTargetLayer siblingTree "D" none []).found = true ∧
    (findTargetLayer siblingTree "D" none []).parentLayer = some siblingParent ∧
    pruneLayersForTargetLayer (.valid siblingTree) "D" = .valid (.cons siblingParent .nil) ∧
    pruneLayersForTargetLayer (.valid siblingTree) "D" ≠
      .valid (.cons (withLayers siblingParent (.cons exampleLayerD .nil)) .nil) := by
  decide

/-- Claim C1 (amended): whenever the locator finds a non-top-level match,
`pruneLayersForTargetLayer` returns a single-element sequence containing
the matched node's immediate parent itself, all fields (its full `layers`
sequence, siblings of the match included) unchanged. -/
theorem C1_prune_returns_parent_unchanged (ls : LayerList) (t : String) (p : Layer)
    (ht : t ≠ "") (hf : (findTargetLayer ls t none []).found = true)
    (hp : (findTargetLayer ls t none []).parentLayer = some p) :
    pruneLayersForTargetLayer (.valid ls) t = .valid (.cons p .nil) :=
  prune_found_parent ls t p ht hf hp

/-- Claim C1 witness: on the spec's example tree, pruning for `D` returns
exactly the parent layer `C` as found in the tree. -/
theorem C1_prune_returns_parent_unchanged_witness :
    ("D" : String) ≠ "" ∧
    (findTargetLayer exampleTree "D" none []).found = true ∧
    (findTargetLayer exampleTree "D" none []).parentLayer = some exampleLayerC ∧
    pruneLayersForTargetLayer (.valid exampleTree) "D" = .valid (.cons exampleLayerC .nil) :=
  ⟨by decide, by decide, by decide,
    C1_prune_returns_parent_unchanged exampleTree "D" exampleLayerC (by decide)
      (by decide) (by decide)⟩

/-- Claim C2 counterexample: after a reset, registering a record whose
content sequence is empty does register it — the key lookup returns the
record (with empty contents) rather than the claimed undefined. -/
theorem C2_counterexample :
    asset1.contents = some [] ∧
    getAssetRecord (registerAssets resetRegistry [asset1, asset2]) "k1" ≠ none ∧
    getAssetRecord (registerAssets resetRegistry [asset1, asset2]) "k1" =
      some ⟨"d1", "l1", []⟩ := by
  refine ⟨rfl, ?_, rfl⟩
  decide

/-- Claim C2 (amended): `registerAsset` skips a record whose content
sequence is absent; a record with a present (possibly empty) content
sequence and a nonempty key is registered and retrievable by key; a
record registered with an empty content sequence yields no url for any
format, while one with a matching content entry yields that entry's url. -/
theorem C2_assetRegistry_amended :
    (∀ (st : Registry) (a : Asset), a.contents = none → registerAsset st a = st) ∧
    (∀ (st : Registry) (a : Asset) (k : String) (cs : List AssetContentEntry),
      a.layerSourceId = some k → k ≠ "" → a.contents = some cs →
      getAssetRecord (registerAsset st a) k = some (mkAssetRecord a cs)) ∧
    getAssetRecord (registerAssets resetRegistry [asset1, asset2]) "k1" =
      some ⟨"d1", "l1", []⟩ ∧
    (∀ fmt, getAssetUrl (registerAssets resetRegistry [asset1, asset2]) "k1" fmt = none) ∧
    getAssetUrl (registerAssets resetRegistry [asset1, asset2]) "k2" "svg" = some "u" :=
  ⟨registerAsset_contents_none, registerAsset_lookup, by decide,
    fun fmt => getAssetUrl_empty_contents _ "k1" fmt "d1" "l1" (by decide),
    by decide⟩

/-- Claim C2 witness: a concrete asset with an absent content sequence is
skipped by `registerAsset`. -/
theorem C2_assetRegistry_amended_witness :
    asset3.contents = none ∧ registerAsset resetRegistry asset3 = resetRegistry :=
  ⟨rfl, C2_assetRegistry_amended.1 resetRegistry asset3 rfl⟩

/-- Claim C3: the normalizer is idempotent — normalizing an already
normalized document node (scalar, sequence, or record) changes nothing. -/
theorem C3_normalize_idempotent : ∀ d : JVal, preProcess (preProcess d) = preProcess d :=
  preProcess_idem_helper

/-- Claim C4: the normalized form of any document node contains no field
named `id`, `created`, `creator`, or `thumbnails` at any nesting depth. -/
theorem C4_normalize_noise_free (d : JVal) :
    containsKey "id" (preProcess d) = false ∧
    containsKey "created" (preProcess d) = false ∧
    containsKey "creator" (preProcess d) = false ∧
    containsKey "thumbnails" (preProcess d) = false :=
  ⟨containsKey_preProcess_skip d "id" (by decide),
    containsKey_preProcess_skip d "created" (by decide),
    containsKey_preProcess_skip d "creator" (by decide),
    containsKey_preProcess_skip d "thumbnails" (by decide)⟩

/-- Claim C5 counterexample: an `opacity` field whose value is an empty
sequence does not equal the default 1, yet normalization drops it (its
processed value is an empty sequence), so field dropping is not exactly
the default-value test. -/
theorem C5_counterexample :
    isDefault "opacity" (JVal.arr JList.nil) = false ∧
    preProcess (JVal.obj (JFields.cons "opacity" (JVal.arr JList.nil) JFields.nil)) =
      JVal.obj JFields.nil := by
  decide

/-- Claim C5 (amended): a field whose value equals the known default for
its name (opacity 1, blend-mode "normal", rotation 0) is always dropped;
no default-valued field ever appears in normalized output; an `opacity`
field with a non-default numeric value such as 0.5 is retained unchanged;
but a field may also be dropped for other reasons (noise names, values
normalizing to an empty sequence). -/
theorem C5_default_elision_amended :
    (∀ (k : String) (v : JVal) (fs : JFields), isDefault k v = true →
      preProcessFields (JFields.cons k v fs) = preProcessFields fs) ∧
    (∀ (fs : JFields) (k : String) (v : JVal),
      memField k v (preProcessFields fs) → isDefault k v = false) ∧
    (∀ fs : JFields, preProcessFields (JFields.cons "opacity" (JVal.num 1) fs) =
      preProcessFields fs) ∧
    (∀ (q : ℚ) (fs : JFields), q ≠ 1 →
      preProcessFields (JFields.cons "opacity" (JVal.num q) fs) =
        JFields.cons "opacity" (JVal.num q) (preProcessFields fs)) :=
  ⟨preProcessFields_default_drop,
    memField_preProcessFields_not_default,
    fun fs => preProcessFields_default_drop "opacity" (JVal.num 1) fs (by decide),
    preProcessFields_opacity_keep⟩

/-- Claim C5 witness: rotation 0 is dropped, opacity one half is kept. -/
theorem C5_default_elision_amended_witness :
    isDefault "rotation" (JVal.num 0) = true ∧
    preProcessFields (JFields.cons "rotation" (JVal.num 0) JFields.nil) = JFields.nil ∧
    mkRat 1 2 ≠ 1 ∧
    preProcessFields (JFields.cons "opacity" (JVal.num (mkRat 1 2)) JFields.nil) =
      JFields.cons "opacity" (JVal.num (mkRat 1 2)) JFields.nil :=
  ⟨by decide,
    C5_default_elision_amended.1 "rotation" (JVal.num 0) JFields.nil (by decide),
    by decide,
    C5_default_elision_amended.2.2.2 (mkRat 1 2) JFields.nil (by decide)⟩

/-- Claim C6 counterexample: a `contents` entry that is an empty sequence
carries no `density` field, so the claim keeps it, but the code drops it
(and, nothing remaining, drops the whole field), so the output differs
from the claimed filter-then-normalize result. -/
theorem C6_counterexample :
    keepByDensity (JVal.arr JList.nil) = true ∧
    preProcess (JVal.obj (JFields.cons "contents"
        (JVal.arr (JList.cons (JVal.arr JList.nil) JList.nil)) JFields.nil)) ≠
      JVal.obj (JFields.cons "contents"
        (JVal.arr (mapJ preProcess
          (filterJ keepByDensity (JList.cons (JVal.arr JList.nil) JList.nil)))) JFields.nil) := by
  decide

/-- Claim C6 (amended): an array-valued `contents` field is processed by
keeping entries per the density rule except that empty-sequence entries
are also dropped, normalizing each kept entry, dropping entries that
normalized to an empty sequence, and omitting the field entirely when
nothing remains; a density-1 plus density-2 pair collapses to the
density-1 entry alone. -/
theorem C6_contents_amended :
    (∀ xs : JList, preProcessContents xs =
      filterJ (fun v => !isEmptyArr v) (mapJ preProcess (filterJ keepContentItem xs))) ∧
    (∀ v : JVal, keepContentItem v = (keepByDensity v && !isEmptyArr v)) ∧
    (∀ (xs : JList) (fs : JFields), preProcessContents xs = .nil →
      preProcessFields (JFields.cons "contents" (JVal.arr xs) fs) = preProcessFields fs) ∧
    (∀ (xs : JList) (fs : JFields), preProcessContents xs ≠ .nil →
      preProcessFields (JFields.cons "contents" (JVal.arr xs) fs) =
        JFields.cons "contents" (JVal.arr (preProcessContents xs)) (preProcessFields fs)) ∧
    preProcess (JVal.obj (JFields.cons "contents"
        (JVal.arr (JList.cons contentsE1 (JList.cons contentsE2 JList.nil))) JFields.nil)) =
      JVal.obj (JFields.cons "contents"
        (JVal.arr (JList.cons contentsE1 JList.nil)) JFields.nil) :=
  ⟨preProcessContents_eq_composed, keepContentItem_eq_spec,
    preProcessFields_contents_drop, preProcessFields_contents_keep, by decide⟩

/-- Claim C6 witness: a contents array whose only entry is an empty
sequence empties out and the field is dropped; a density-1 entry is kept
and the field retained. -/
theorem C6_contents_amended_witness :
    preProcessContents (JList.cons (JVal.arr JList.nil) JList.nil) = JList.nil ∧
    preProcessFields (JFields.cons "contents"
        (JVal.arr (JList.cons (JVal.arr JList.nil) JList.nil)) JFields.nil) = JFields.nil ∧
    preProcessContents (JList.cons contentsE1 JList.nil) ≠ JList.nil ∧
    preProcessFields (JFields.cons "contents"
        (JVal.arr (JList.cons contentsE1 JList.nil)) JFields.nil) =
      JFields.cons "contents" (JVal.arr (JList.cons contentsE1 JList.nil)) JFields.nil :=
  ⟨by decide,
    C6_contents_amended.2.2.1 (JList.cons (JVal.arr JList.nil) JList.nil) JFields.nil (by decide),
    by decide,
    C6_contents_amended.2.2.2.1 (JList.cons contentsE1 JList.nil) JFields.nil (by decide)⟩

/-- Claim C7: token sanitization normalizes first and then removes every
field literally named `metadata` at every depth regardless of value — the
sanitized output contains no `metadata` field anywhere — and the metadata
pass removes nothing else: every other field of a record survives it, with
its value recursively processed. -/
theorem C7_sanitizeTokens_spec :
    (∀ d : JVal, containsKey "metadata" (preProcessDesignTokens d) = false) ∧
    (∀ d : JVal, preProcessDesignTokens d = removeMetadata (preProcess d)) ∧
    (∀ (fs : JFields) (k : String) (w : JVal),
      memField k w (removeMetadataFields fs) ↔
        ((k == "metadata") = false ∧ ∃ v, memField k v fs ∧ w = removeMetadata v)) :=
  ⟨fun d => containsKey_removeMetadata (preProcess d), fun _ => rfl,
    memField_removeMetadataFields⟩

/-- Claim C8: the locator equals the declarative description — take all
root-to-layer paths in depth-first pre-order (children before later
siblings), find the first whose endpoint matches the target by
componentName or name, and return that endpoint as the layer, the path's
second-to-last element as the parent (none for a top-level match), and the
path itself; with the not-found record when no visited layer matches. -/
theorem C8_locator_preorder_first_match (ls : LayerList) (t : String) :
    findTargetLayer ls t none [] = locateSpec t (preorderPaths [] ls) :=
  findTargetLayer_eq_locateSpec ls t []

/-- Claim C10: a successful locate result is internally consistent — the
path is nonempty, its last element is the matched layer, the parent is
none exactly when the path has length one, and otherwise the parent is the
path's second-to-last element. -/
theorem C10_locate_found_invariant (ls : LayerList) (t : String)
    (h : (findTargetLayer ls t none []).found = true) :
    (findTargetLayer ls t none []).path ≠ [] ∧
    (findTargetLayer ls t none []).layer = (findTargetLayer ls t none []).path.getLast? ∧
    ((findTargetLayer ls t none []).parentLayer = none ↔
      (findTargetLayer ls t none []).path.length = 1) ∧
    (2 ≤ (findTargetLayer ls t none []).path.length →
      (findTargetLayer ls t none []).parentLayer =
        (findTargetLayer ls t none []).path.dropLast.getLast?) := by
  obtain ⟨p, -, heq, hm⟩ := locate_found_inv ls t h
  have hne : p ≠ [] := by
    intro hp
    subst hp
    simp [pathMatches] at hm
  have hlen : 1 ≤ p.length := List.length_pos.mpr hne
  rw [heq]
  dsimp only
  refine ⟨hne, rfl, ?_, fun _ => rfl⟩
  constructor
  · intro hnone
    have h1 : p.dropLast = [] := List.getLast?_eq_none_iff.mp hnone
    have h2 := (dropLast_eq_nil_iff_len p).mp h1
    omega
  · intro h1
    refine List.getLast?_eq_none_iff.mpr ((dropLast_eq_nil_iff_len p).mpr ?_)
    omega

/-- Claim C10 witness: the invariant holds on the spec's example tree
where `D` is found at depth three. -/
theorem C10_locate_found_invariant_witness :
    (findTargetLayer exampleTree "D" none []).found = true ∧
    ((findTargetLayer exampleTree "D" none []).path ≠ [] ∧
    (findTargetLayer exampleTree "D" none []).layer =
      (findTargetLayer exampleTree "D" none []).path.getLast? ∧
    ((findTargetLayer exampleTree "D" none []).parentLayer = none ↔
      (findTargetLayer exampleTree "D" none []).path.length = 1) ∧
    (2 ≤ (findTargetLayer exampleTree "D" none []).path.length →
      (findTargetLayer exampleTree "D" none []).parentLayer =
        (findTargetLayer exampleTree "D" none []).path.dropLast.getLast?)) :=
  ⟨by decide, C10_locate_found_invariant exampleTree "D" (by decide)⟩

/-- Claim C9: for a non-empty target the pruner never fails — a malformed
(non-array) input yields an empty sequence, an unsuccessful search yields
an empty sequence as a normal outcome, and an empty target name returns
the input unchanged. -/
theorem C9_prune_error_handling :
    (∀ x : LayersInput, pruneLayersForTargetLayer x "" = x) ∧
    (∀ t : String, t ≠ "" → pruneLayersForTargetLayer .malformed t = .valid .nil) ∧
    (∀ (ls : LayerList) (t : String), t ≠ "" →
      (findTargetLayer ls t none []).found = false →
      pruneLayersForTargetLayer (.valid ls) t = .valid .nil) :=
  ⟨prune_empty_target, prune_malformed, prune_not_found⟩

/-- Claim C9 witness: concrete instances of all three behaviors. -/
theorem C9_prune_error_handling_witness :
    pruneLayersForTargetLayer (.valid exampleTree) "" = .valid exampleTree ∧
    ("Z" : String) ≠ "" ∧
    pruneLayersForTargetLayer .malformed "Z" = .valid .nil ∧
    (findTargetLayer exampleTree "Z" none []).found = false ∧
    pruneLayersForTargetLayer (.valid exampleTree) "Z" = .valid .nil :=
  ⟨C9_prune_error_handling.1 (.valid exampleTree), by decide,
    C9_prune_error_handling.2.1 "Z" (by decide), by decide,
    C9_prune_error_handling.2.2 exampleTree "Z" (by decide) (by decide)⟩
